/-
Verification of the spreadsheet-scraper / staged-messaging bot (`chirper.py`)
against its natural-language specification.

The development shallowly embeds the bookkeeping core of the program:
  * the Handle Extractor (`extract_twitter_handles` and its per-cell body),
  * the File Registry discovery pass (`scan_for_new_spreadsheets`),
  * the Extraction Pass (`extract_twitter_handles_from_spreadsheets`),
  * the Stage Runner (`send_tweet` / `tweet_everything`).

Python strings are modelled as Lean `String`s with explicit character-list
semantics for `strip`, `split`, `startswith`, slicing and the `in` operator
(`py_strip`, `py_split`, `py_startswith`, `py_drop`, `py_contains`), so that
every string operation of the source has a definite, executable meaning.
Timestamps are opaque `Nat`s.  The durable store's two B-tree mappings are
modelled as association lists; the transactional all-or-nothing semantics of
the store is modelled by making each transaction-scoped block a pure function
that either returns the fully updated state or the unchanged input state
together with an error.  External collaborators (drive listing, spreadsheet
column fetch, messaging transport) are oracle parameters.
-/
import Mathlib

namespace Chirper

/-! ### Python string primitives -/

/-- Python `s.strip()`: drop leading and trailing whitespace characters. -/
def py_strip (s : String) : String :=
  ⟨((s.toList.dropWhile Char.isWhitespace).reverse.dropWhile Char.isWhitespace).reverse⟩

/-- Python `s.split(c)` for a one-character separator `c`. -/
def py_split (s : String) (c : Char) : List String :=
  (s.toList.splitOn c).map fun l => ⟨l⟩

/-- Python `s.startswith(p)`. -/
def py_startswith (s p : String) : Bool :=
  p.toList.isPrefixOf s.toList

/-- Python `s[n:]` (slicing a string from character index `n`). -/
def py_drop (s : String) (n : Nat) : String :=
  ⟨s.toList.drop n⟩

/-- Naive contiguous-substring search on character lists. -/
def list_contains_sub (sub : List Char) : List Char → Bool
  | [] => sub.isPrefixOf []
  | c :: rest => sub.isPrefixOf (c :: rest) || list_contains_sub sub rest

/-- Python `sub in s` (substring containment). -/
def py_contains (s sub : String) : Bool :=
  list_contains_sub sub.toList s.toList

/-! ### Handle Extractor (`extract_twitter_handles`, chirper.py lines 126–169)

The gspread worksheet access is abstracted: the extractor receives the list of
cell strings of the designated column (`worksheet.col_values(col_index)`), and
processes them exactly as the source's per-cell loop does. -/

/-- `twitter_url_prefix` of the source: the recognized profile URL prefixes. -/
def twitter_url_starts : List String :=
  ["https://twitter.com/", "http://twitter.com/"]

/-- The source's legacy-fragment cleanup: if the handle still starts with
`#!/`, strip that marker (`handle = handle[len("#!/"):]`). -/
def clean_fragment (handle : String) : String :=
  if py_startswith handle "#!/" then py_drop handle 3 else handle

/-- The inner double loop of `extract_twitter_handles`: for each recognized
prefix that the (already trimmed) piece starts with, strip the prefix, clean
the legacy fragment marker, and emit the handle. -/
def url_handles (url : String) : List String :=
  twitter_url_starts.filterMap fun p =>
    if py_startswith url p then some (clean_fragment (py_drop url p.length)) else none

/-- The body of the per-cell loop of `extract_twitter_handles`:
empty cells are skipped (`if not cell_content: continue`); cells without
`://` are taken verbatim as one stripped handle; otherwise the cell is split
on commas, each piece stripped, and recognized profile URLs converted. -/
def cell_handles (cell : String) : List String :=
  if cell = "" then []
  else if py_contains cell "://" then
    ((py_split cell ',').map py_strip).flatMap url_handles
  else [py_strip cell]

/-- `extract_twitter_handles`, applied to the fetched column of cell values. -/
def extract_twitter_handles (cells : List String) : List String :=
  cells.flatMap cell_handles

example : cell_handles "http://twitter.com/#!/baz" = ["baz"] := by decide
example : cell_handles "https://twitter.com/foo, bar" = ["foo"] := by decide
example : cell_handles " " = [""] := by decide
example : cell_handles "" = [] := by decide
example : cell_handles "plainhandle " = ["plainhandle"] := by decide

/-! ### Data model (ZODB root, chirper.py lines 106–123)

`root.files` maps file id to the drive file's metadata mapping (of which the
source uses `title`, `createdDate` and the `processed` flag it adds itself);
`root.twitter_handles` maps handle to its lifecycle record.  Both B-trees are
modelled as association lists; timestamps are opaque `Nat`s (`createdDate` is
kept already parsed, as `iso8601.parse_date` would produce it). -/

/-- One record of `root.files`. -/
structure FileRec where
  title : String
  createdDate : Nat
  processed : Bool
deriving Repr, DecidableEq

/-- One record of `root.twitter_handles`
(`{added, imported, sheet, first_tweet_at, second_tweet_at}`). -/
structure HandleRec where
  added : Nat
  imported : Nat
  sheet : String
  first_tweet_at : Option Nat
  second_tweet_at : Option Nat
deriving Repr, DecidableEq

/-- One item of the drive listing returned by `watch_files`. -/
structure DriveFile where
  id : String
  title : String
  createdDate : Nat
deriving Repr, DecidableEq

/-! ### Discovery (`scan_for_new_spreadsheets`, chirper.py lines 194–220)

For each listed file: take the last character of its title (`title[-1]` — an
IndexError on an empty title, which aborts the run), skip files whose title
does not end in a digit, and insert a fresh record for unseen file ids.  Each
insert is its own transaction, so on an abort the records inserted for earlier
files of the listing are retained. -/

def scan_for_new_spreadsheets (db : List (String × FileRec)) :
    List DriveFile → List (String × FileRec) × Option String
  | [] => (db, none)
  | f :: rest =>
    match f.title.toList.getLast? with
    | none => (db, some "IndexError: string index out of range")
    | some last_char =>
      if last_char.isDigit then
        if (db.lookup f.id).isSome then scan_for_new_spreadsheets db rest
        else scan_for_new_spreadsheets (db ++ [(f.id, ⟨f.title, f.createdDate, false⟩)]) rest
      else scan_for_new_spreadsheets db rest

/-! ### Extraction Pass (`extract_twitter_handles_from_spreadsheets`,
chirper.py lines 223–251)

The spreadsheet collaborator is the oracle `spread : String → Option (List
String)`, giving the designated column's cell values for a file id, or `none`
when fetching/extraction raises.  The handle insertions and the `processed`
flag flip for one file happen inside one `transaction.manager` block: they are
applied together or, when extraction raised before the block, not at all, and
the raise aborts the whole pass (files later in the iteration are untouched,
earlier files' committed transactions are retained). -/

/-- The insertion loop of the per-file transaction: add every handle not yet
present, with `added` = the file's creation date, `imported` = now,
`sheet` = the file id. -/
def import_handles (file_id : String) (createdDate now : Nat)
    (handles : List String) (th : List (String × HandleRec)) :
    List (String × HandleRec) :=
  handles.foldl (fun acc handle =>
    if (acc.lookup handle).isSome then acc
    else acc ++ [(handle, ⟨createdDate, now, file_id, none, none⟩)]) th

/-- The per-file body of the extraction pass: skip files already marked
processed; otherwise fetch and extract (which may fail), then commit the
handle insertions together with the `processed := true` flip. -/
def process_file (spread : String → Option (List String)) (now : Nat)
    (file_id : String) (fd : FileRec) (th : List (String × HandleRec)) :
    FileRec × List (String × HandleRec) × Option String :=
  if fd.processed then (fd, th, none)
  else
    match spread file_id with
    | none => (fd, th, some ("extraction failed for " ++ file_id))
    | some cells =>
      ({fd with processed := true},
       import_handles file_id fd.createdDate now (extract_twitter_handles cells) th,
       none)

/-- `extract_twitter_handles_from_spreadsheets`: iterate all known files; a
raised extraction error aborts the pass, leaving the failing file and all
later files untouched. -/
def extract_run (spread : String → Option (List String)) (now : Nat)
    (th : List (String × HandleRec)) :
    List (String × FileRec) →
    List (String × FileRec) × List (String × HandleRec) × Option String
  | [] => ([], th, none)
  | (file_id, fd) :: rest =>
    let step := process_file spread now file_id fd th
    match step.2.2 with
    | some e => ((file_id, step.1) :: rest, step.2.1, some e)
    | none =>
      let tail := extract_run spread now step.2.1 rest
      ((file_id, step.1) :: tail.1, tail.2.1, tail.2.2)

/-! ### Stage Runner (`send_tweet` / `tweet_everything`,
chirper.py lines 254–309)

The messaging transport is the oracle `String → Nat → TransportRes`, giving
the transport's reply to the send for a given handle and stage (1 or 2). -/

/-- The transport collaborator's possible replies to one send. -/
inductive TransportRes where
  | success : TransportRes
  | duplicateContent : TransportRes
  | otherError : String → TransportRes
deriving Repr, DecidableEq

/-- `send_tweet`: on success return normally; on a duplicate-content reply
(Twitter error code 187) print, sleep and *return normally as well* — the
`return` on line 268 leaves the caller's control flow identical to the
success case; any other transport error is re-raised as a `RuntimeError`. -/
def send_tweet : TransportRes → Except String Unit
  | .success => Except.ok ()
  | .duplicateContent => Except.ok ()
  | .otherError msg => Except.error ("Twitter doesn't like us: " ++ msg)

/-- `MAX_TWEET_COUNT` (chirper.py line 67): per-run cap on sends. -/
def MAX_TWEET_COUNT : Nat := 10

/-- Result of one Stage Runner run: the updated handle registry, the final
`tweet_count`, the completed sends as (handle, stage) pairs in order, and the
error that aborted the run, if any. -/
structure RunOut where
  handles : List (String × HandleRec)
  count : Nat
  sends : List (String × Nat)
  error : Option String
deriving Repr, DecidableEq

/-- The loop of `tweet_everything`.  Per handle, inside one transaction:
if `first_tweet_at` is unset, send stage 1 and set it; else if
`second_tweet_at` is unset, send stage 2 and set it; else skip.  A raising
send aborts the transaction (the record keeps its old value) and the whole
run; after each handle, the loop breaks once `tweet_count` has reached
`cap`. -/
def tweet_loop (oracle : String → Nat → TransportRes) (now cap : Nat) :
    Nat → List (String × HandleRec) → RunOut
  | count, [] => ⟨[], count, [], none⟩
  | count, (h, rec) :: rest =>
    match rec.first_tweet_at with
    | none =>
      match send_tweet (oracle h 1) with
      | .error e => ⟨(h, rec) :: rest, count, [], some e⟩
      | .ok _ =>
        let rec2 := {rec with first_tweet_at := some now}
        if count + 1 ≥ cap then ⟨(h, rec2) :: rest, count + 1, [(h, 1)], none⟩
        else
          let out := tweet_loop oracle now cap (count + 1) rest
          ⟨(h, rec2) :: out.handles, out.count, (h, 1) :: out.sends, out.error⟩
    | some _ =>
      match rec.second_tweet_at with
      | none =>
        match send_tweet (oracle h 2) with
        | .error e => ⟨(h, rec) :: rest, count, [], some e⟩
        | .ok _ =>
          let rec2 := {rec with second_tweet_at := some now}
          if count + 1 ≥ cap then ⟨(h, rec2) :: rest, count + 1, [(h, 2)], none⟩
          else
            let out := tweet_loop oracle now cap (count + 1) rest
            ⟨(h, rec2) :: out.handles, out.count, (h, 2) :: out.sends, out.error⟩
      | some _ =>
        if count ≥ cap then ⟨(h, rec) :: rest, count, [], none⟩
        else
          let out := tweet_loop oracle now cap count rest
          ⟨(h, rec) :: out.handles, out.count, out.sends, out.error⟩

/-- `tweet_everything`: one Stage Runner run over the whole handle registry,
with `tweet_count` starting at 0 and the source's `MAX_TWEET_COUNT` cap. -/
def tweet_everything (oracle : String → Nat → TransportRes) (now : Nat)
    (db : List (String × HandleRec)) : RunOut :=
  tweet_loop oracle now MAX_TWEET_COUNT 0 db

/-- A sequence of Stage Runner runs (one scheduled invocation each), every
run with its own transport oracle and clock value; a fatal error kills one
process/run only, the next run starts from the committed state.  Returns the
final registry and all completed sends, in order. -/
def run_many (cap : Nat) :
    List ((String → Nat → TransportRes) × Nat) → List (String × HandleRec) →
    List (String × HandleRec) × List (String × Nat)
  | [], db => (db, [])
  | (o, now) :: ps, db =>
    let out := tweet_loop o now cap 0 db
    let tail := run_many cap ps out.handles
    (tail.1, out.sends ++ tail.2)

/-! ### Helper lemmas about the string primitives -/

/-- `isPrefixOf` on character lists is existence of a completing suffix. -/
theorem isPrefixOf_iff_exists (p : List Char) :
    ∀ l : List Char, p.isPrefixOf l = true ↔ ∃ t, l = p ++ t := by
  induction p with
  | nil => intro l; simp
  | cons a as ih =>
    intro l
    cases l with
    | nil => simp [List.isPrefixOf]
    | cons b bs =>
      rw [List.isPrefixOf_cons₂, Bool.and_eq_true, beq_iff_eq, ih]
      constructor
      · rintro ⟨rfl, t, rfl⟩; exact ⟨t, rfl⟩
      · rintro ⟨t, ht⟩
        injection ht with h1 h2
        exact ⟨h1.symm, t, h2⟩

/-- The two recognized profile URL prefixes are mutually exclusive: a piece
starting with the `https` one cannot also start with the `http` one. -/
theorem starts_excl (s : String)
    (h : py_startswith s "https://twitter.com/" = true) :
    py_startswith s "http://twitter.com/" = false := by
  unfold py_startswith at h ⊢
  rw [isPrefixOf_iff_exists] at h
  obtain ⟨t, ht⟩ := h
  by_contra hcon
  rw [Bool.not_eq_false, isPrefixOf_iff_exists] at hcon
  obtain ⟨u, hu⟩ := hcon
  rw [ht] at hu
  have hA : "https://twitter.com/".toList =
      'h' :: 't' :: 't' :: 'p' :: 's' :: ':' :: '/' :: '/' :: 't' :: 'w' :: 'i' :: 't' :: 't' :: 'e' :: 'r' :: '.' :: 'c' :: 'o' :: 'm' :: '/' ::[] := rfl
  have hB : "http://twitter.com/".toList =
      'h' :: 't' :: 't' :: 'p' :: ':' :: '/' :: '/' :: 't' :: 'w' :: 'i' :: 't' :: 't' :: 'e' :: 'r' :: '.' :: 'c' :: 'o' :: 'm' :: '/' ::[] := rfl
  rw [hA, hB] at hu
  simp only [List.cons_append] at hu
  injection hu with _ hu
  injection hu with _ hu
  injection hu with _ hu
  injection hu with _ hu
  injection hu with h5 _
  exact absurd h5 (by decide)

/-- Restatement of §4.1 rules 3–5 of the specification, per trimmed piece:
one handle for a piece starting with a recognized profile URL prefix, with
the prefix stripped (20 resp. 19 characters) and the legacy `#!/` fragment
marker stripped; a piece not starting with a recognized prefix contributes
no handle. -/
def spec_piece_handles (u : String) : List String :=
  if py_startswith u "https://twitter.com/" then [clean_fragment (py_drop u 20)]
  else if py_startswith u "http://twitter.com/" then [clean_fragment (py_drop u 19)]
  else []

/-- The double loop of the source agrees with the per-piece specification. -/
theorem url_handles_eq_spec (u : String) : url_handles u = spec_piece_handles u := by
  unfold url_handles spec_piece_handles twitter_url_starts
  cases h1 : py_startswith u "https://twitter.com/" with
  | true =>
    have h2 := starts_excl u h1
    simp [List.filterMap_cons, h1, h2,
      show ("https://twitter.com/" : String).length = 20 from rfl]
  | false =>
    cases h2 : py_startswith u "http://twitter.com/" with
    | true =>
      simp [List.filterMap_cons, h1, h2,
        show ("http://twitter.com/" : String).length = 19 from rfl]
    | false =>
      simp [List.filterMap_cons, h1, h2]

/-- C7: for every cell text containing `://`, the extractor splits on commas,
trims each piece, and yields exactly the handles described by
`spec_piece_handles` (recognized prefix stripped, legacy `#!/` marker
stripped, unrecognized pieces silently dropped); in particular the cell
`"http://twitter.com/#!/baz"` yields exactly the handle `"baz"`. -/
theorem C7_url_cells (s : String) (hs : py_contains s "://" = true) :
    cell_handles s = ((py_split s ',').map py_strip).flatMap spec_piece_handles ∧
    cell_handles "http://twitter.com/#!/baz" = ["baz"] := by
  constructor
  · have hne : s ≠ "" := by
      intro h
      subst h
      exact absurd hs (by decide)
    have hfun : url_handles = spec_piece_handles := funext url_handles_eq_spec
    simp only [cell_handles, if_neg hne, hs, if_pos, hfun]
  · decide

/-- Witness for C7 at a concrete comma-separated cell. -/
theorem C7_witness :
    cell_handles "https://twitter.com/a, b" =
      ((py_split "https://twitter.com/a, b" ',').map py_strip).flatMap spec_piece_handles ∧
    cell_handles "http://twitter.com/#!/baz" = ["baz"] :=
  C7_url_cells "https://twitter.com/a, b" (by decide)

/-- C6 counterexample: the whitespace-only cell `" "` is truthy in the
source's `if not cell_content` guard, contains no `://`, and therefore
yields the single handle `"".strip() = ""` — not the empty sequence the
claim requires for blank input. -/
theorem C6_counterexample : cell_handles " " = [""] ∧ cell_handles " " ≠ [] := by
  decide

/-- C6 amended: the extractor returns the empty sequence exactly on the empty
cell text; every *nonempty* cell text without `://` (including whitespace-only
text, whose trimmed form is the empty string) yields exactly one handle equal
to the trimmed input. -/
theorem C6_amended_plain_cells (s : String) (hs : py_contains s "://" = false) :
    (s = "" → cell_handles s = []) ∧ (s ≠ "" → cell_handles s = [py_strip s]) := by
  constructor
  · intro h; subst h; rfl
  · intro h
    simp [cell_handles, if_neg h, hs]

/-- Witness for C6 (amended) at a concrete plain-handle cell. -/
theorem C6_witness : cell_handles "someuser" = [py_strip "someuser"] :=
  (C6_amended_plain_cells "someuser" (by decide)).2 (by decide)

/-- C2 counterexample: in the cell `"https://twitter.com/foo, bar"` the piece
`"bar"` has no recognized profile URL prefix and is dropped (the cell contains
`://`, so the bare-handle branch is not taken); extraction yields `["foo"]`,
not `["foo", "bar"]`, and after the extraction pass the Handle Registry has no
record for `"bar"`. -/
theorem C2_counterexample :
    extract_twitter_handles ["https://twitter.com/foo, bar"] ≠ ["foo", "bar"] ∧
    ((extract_run
        (fun fid => if fid = "F1" then some ["https://twitter.com/foo, bar"] else none)
        7 [] [("F1", ⟨"Sheet 1", 3, false⟩)]).2.1.lookup "bar" = none) := by
  decide

/-- C2 amended: the cell `"https://twitter.com/foo, bar"` in file `F1` yields
exactly the handle `"foo"`; only `"foo"` receives a new HandleRecord (with
`sheet = "F1"`, `added` = the file's creation date and `imported` = now),
`"bar"` receives none, and the file is marked processed. -/
theorem C2_amended_scenario :
    extract_twitter_handles ["https://twitter.com/foo, bar"] = ["foo"] ∧
    extract_run
        (fun fid => if fid = "F1" then some ["https://twitter.com/foo, bar"] else none)
        7 [] [("F1", ⟨"Sheet 1", 3, false⟩)] =
      ([("F1", ⟨"Sheet 1", 3, true⟩)], [("foo", ⟨3, 7, "F1", none, none⟩)], none) := by
  decide

/-! ### Discovery: helper lemmas and claims C8, C10 -/

/-- Discovery is purely additive: every record present before a discovery run
is present, unchanged, afterwards. -/
theorem scan_preserves (listing : List DriveFile) :
    ∀ (db : List (String × FileRec)) (fid : String) (rec : FileRec),
      db.lookup fid = some rec →
      (scan_for_new_spreadsheets db listing).1.lookup fid = some rec := by
  induction listing with
  | nil => intro db fid rec h; exact h
  | cons f rest ih =>
    intro db fid rec h
    cases hlast : f.title.toList.getLast? with
    | none => simp only [scan_for_new_spreadsheets, hlast]; exact h
    | some c =>
      cases hd : c.isDigit with
      | false =>
        simp only [scan_for_new_spreadsheets, hlast, hd, Bool.false_eq_true, if_false]
        exact ih db fid rec h
      | true =>
        cases hpres : (db.lookup f.id).isSome with
        | true =>
          simp only [scan_for_new_spreadsheets, hlast, hd, hpres, if_true]
          exact ih db fid rec h
        | false =>
          simp only [scan_for_new_spreadsheets, hlast, hd, hpres, if_true,
            Bool.false_eq_true, if_false]
          refine ih _ fid rec ?_
          rw [List.lookup_append, h]
          rfl

/-- A second discovery run over the same listing is a no-op, whatever state
(including a possible abort) the first run reached. -/
theorem scan_idem (listing : List DriveFile) :
    ∀ db : List (String × FileRec),
      scan_for_new_spreadsheets (scan_for_new_spreadsheets db listing).1 listing
        = scan_for_new_spreadsheets db listing := by
  induction listing with
  | nil => intro db; rfl
  | cons f rest ih =>
    intro db
    cases hlast : f.title.toList.getLast? with
    | none => simp only [scan_for_new_spreadsheets, hlast]
    | some c =>
      cases hd : c.isDigit with
      | false =>
        simp only [scan_for_new_spreadsheets, hlast, hd, Bool.false_eq_true, if_false]
        exact ih db
      | true =>
        cases hpres : (db.lookup f.id).isSome with
        | true =>
          simp only [scan_for_new_spreadsheets, hlast, hd, hpres, if_true]
          obtain ⟨rec, hrec⟩ := Option.isSome_iff_exists.mp hpres
          have hkeep := scan_preserves rest db f.id rec hrec
          rw [if_pos (by rw [hkeep]; rfl)]
          exact ih db
        | false =>
          simp only [scan_for_new_spreadsheets, hlast, hd, hpres, if_true,
            Bool.false_eq_true, if_false]
          have hself : ((db ++ [(f.id, (⟨f.title, f.createdDate, false⟩ : FileRec))]).lookup f.id).isSome := by
            rw [List.lookup_append]
            cases hdb : db.lookup f.id with
            | none => simp
            | some v => simp
          obtain ⟨rec, hrec⟩ := Option.isSome_iff_exists.mp hself
          rw [if_pos (by rw [scan_preserves rest _ f.id rec hrec]; rfl)]
          exact ih _

/-- C8: discovery is idempotent and purely additive — a second run over an
identical source listing leaves the File Registry exactly as it stood after
the first run, and the first run never mutates or removes an already-known
record (title and createdDate are never refreshed). -/
theorem C8_discovery_idempotent (listing : List DriveFile)
    (db : List (String × FileRec)) :
    scan_for_new_spreadsheets (scan_for_new_spreadsheets db listing).1 listing
      = scan_for_new_spreadsheets db listing ∧
    ∀ fid rec, db.lookup fid = some rec →
      (scan_for_new_spreadsheets db listing).1.lookup fid = some rec :=
  ⟨scan_idem listing db, fun fid rec h => scan_preserves listing db fid rec h⟩

/-- Witness for C8 on a concrete registry and listing. -/
theorem C8_witness :
    (scan_for_new_spreadsheets
        (scan_for_new_spreadsheets [("a", ⟨"T 1", 1, false⟩)] [⟨"b", "List 2", 2⟩]).1
        [⟨"b", "List 2", 2⟩]
      = scan_for_new_spreadsheets [("a", ⟨"T 1", 1, false⟩)] [⟨"b", "List 2", 2⟩]) ∧
    (scan_for_new_spreadsheets [("a", ⟨"T 1", 1, false⟩)] [⟨"b", "List 2", 2⟩]).1.lookup "a"
      = some ⟨"T 1", 1, false⟩ :=
  ⟨(C8_discovery_idempotent [⟨"b", "List 2", 2⟩] [("a", ⟨"T 1", 1, false⟩)]).1,
   (C8_discovery_idempotent [⟨"b", "List 2", 2⟩] [("a", ⟨"T 1", 1, false⟩)]).2
     "a" ⟨"T 1", 1, false⟩ (by decide)⟩

/-- C10: if the drive listing contains a file with an empty title, discovery
hits `title[-1]` and aborts with an out-of-range indexing error rather than
skipping the file, and no record for that file id is inserted. -/
theorem C10_empty_title_aborts (f : DriveFile) (hft : f.title = "") :
    ∀ (listing : List DriveFile) (db : List (String × FileRec)),
      f ∈ listing →
      db.lookup f.id = none →
      (∀ g ∈ listing, g.id = f.id → g = f) →
      (scan_for_new_spreadsheets db listing).2
          = some "IndexError: string index out of range" ∧
      (scan_for_new_spreadsheets db listing).1.lookup f.id = none := by
  intro listing
  induction listing with
  | nil => intro db hmem _ _; cases hmem
  | cons g rest ih =>
    intro db hmem hfresh huniq
    rcases List.mem_cons.mp hmem with heq | hmem'
    · have hnone : g.title.toList.getLast? = none := by
        rw [← heq, hft]
        rfl
      simp only [scan_for_new_spreadsheets, hnone]
      exact ⟨trivial, hfresh⟩
    · cases hlast : g.title.toList.getLast? with
      | none =>
        simp only [scan_for_new_spreadsheets, hlast]
        exact ⟨trivial, hfresh⟩
      | some c =>
        have huniq' : ∀ g' ∈ rest, g'.id = f.id → g' = f :=
          fun g' hg' => huniq g' (List.mem_cons_of_mem g hg')
        cases hd : c.isDigit with
        | false =>
          simp only [scan_for_new_spreadsheets, hlast, hd, Bool.false_eq_true, if_false]
          exact ih db hmem' hfresh huniq'
        | true =>
          cases hpres : (db.lookup g.id).isSome with
          | true =>
            simp only [scan_for_new_spreadsheets, hlast, hd, hpres, if_true]
            exact ih db hmem' hfresh huniq'
          | false =>
            simp only [scan_for_new_spreadsheets, hlast, hd, hpres, if_true,
              Bool.false_eq_true, if_false]
            have hgid : g.id ≠ f.id := by
              intro he
              have hgf := huniq g (List.mem_cons_self g rest) he
              rw [hgf, hft] at hlast
              cases hlast
            refine ih _ hmem' ?_ huniq'
            rw [List.lookup_append, hfresh]
            have : (f.id == g.id) = false := beq_eq_false_iff_ne.mpr (fun he => hgid he.symm)
            simp [List.lookup_cons, this]

/-- Witness for C10: a single listed file with an empty title. -/
theorem C10_witness :
    (scan_for_new_spreadsheets [] [⟨"X", "", 0⟩]).2
        = some "IndexError: string index out of range" ∧
    (scan_for_new_spreadsheets [] [⟨"X", "", 0⟩]).1.lookup "X" = none :=
  C10_empty_title_aborts ⟨"X", "", 0⟩ rfl [⟨"X", "", 0⟩] []
    (by decide) (by decide) (by decide)

/-! ### Extraction pass: claims C9 and C5 -/

/-- C9: a file already marked `processed=true` is skipped — its per-file step
performs no extraction and changes nothing; consequently re-running the whole
extraction pass when every file is processed leaves the file records and the
Handle Registry unchanged. -/
theorem C9_processed_skipped (spread : String → Option (List String)) (now : Nat)
    (th : List (String × HandleRec)) :
    (∀ fid fd th', fd.processed = true →
        process_file spread now fid fd th' = (fd, th', none)) ∧
    ∀ files : List (String × FileRec),
      (∀ fid fd, (fid, fd) ∈ files → fd.processed = true) →
      extract_run spread now th files = (files, th, none) := by
  constructor
  · intro fid fd th' hp
    simp [process_file, hp]
  · intro files
    induction files with
    | nil => intro _; rfl
    | cons p rest ih =>
      obtain ⟨fid, fd⟩ := p
      intro hall
      have hp : fd.processed = true := hall fid fd (List.mem_cons_self _ _)
      simp only [extract_run, process_file, hp, if_true]
      rw [ih (fun fid' fd' h => hall fid' fd' (List.mem_cons_of_mem _ h))]

/-- Witness for C9: a processed file is skipped even when the spreadsheet
collaborator would fail on it. -/
theorem C9_witness :
    extract_run (fun _ => none) 4 [] [("F1", ⟨"S 1", 5, true⟩)]
      = ([("F1", ⟨"S 1", 5, true⟩)], [], none) :=
  (C9_processed_skipped (fun _ => none) 4 []).2 [("F1", ⟨"S 1", 5, true⟩)]
    (by
      intro fid fd h
      simp only [List.mem_singleton, Prod.mk.injEq] at h
      rw [h.2])

/-- A successful key lookup implies membership of the key. -/
theorem lookup_some_mem_keys {β : Type} (l : List (String × β)) (k : String) (v : β)
    (h : l.lookup k = some v) : k ∈ l.map Prod.fst := by
  induction l with
  | nil => cases h
  | cons p rest ih =>
    obtain ⟨k', v'⟩ := p
    rw [List.lookup_cons] at h
    cases hk : (k == k') with
    | true =>
      simp only [List.map_cons, List.mem_cons]
      exact Or.inl (beq_iff_eq.mp hk)
    | false =>
      rw [hk] at h
      exact List.mem_cons_of_mem _ (ih h)

/-- Every record visible after the insertion loop of one file's transaction
was either already present or carries that file's id as provenance. -/
theorem import_handles_lookup (file_id : String) (cd now : Nat) :
    ∀ (hs : List String) (th : List (String × HandleRec)) (h : String) (r : HandleRec),
      (import_handles file_id cd now hs th).lookup h = some r →
      th.lookup h = some r ∨ r.sheet = file_id := by
  intro hs
  induction hs with
  | nil => intro th h r hl; exact Or.inl hl
  | cons x rest ih =>
    intro th h r hl
    rw [import_handles, List.foldl_cons] at hl
    rw [show ∀ l, List.foldl _ l rest = import_handles file_id cd now rest l from fun l => rfl] at hl
    cases hx : (th.lookup x).isSome with
    | true =>
      rw [hx] at hl
      rw [if_pos rfl] at hl
      exact ih th h r hl
    | false =>
      rw [hx] at hl
      rw [if_neg (by decide)] at hl
      rcases ih _ h r hl with hin | hsheet
      · rw [List.lookup_append] at hin
        cases hth : th.lookup h with
        | some v => rw [hth] at hin; exact Or.inl hin
        | none =>
          rw [hth] at hin
          simp only [Option.none_or] at hin
          rw [List.lookup_cons] at hin
          cases hhx : (h == x) with
          | false => rw [hhx] at hin; cases hin
          | true =>
            rw [hhx] at hin
            have : r = ⟨cd, now, file_id, none, none⟩ := by
              cases hin; rfl
            exact Or.inr (by rw [this])
      · exact Or.inr hsheet

/-- C5: the per-file transaction is all-or-nothing — when the extraction pass
aborts with an error, the failing file is unprocessed with `processed=false`
intact both before and after, its extraction produced nothing, and every
handle record whose provenance is that file was already in the Handle
Registry before the run (no additions for that file are committed), so the
file is redone from scratch on the next run. -/
theorem C5_extraction_atomic (spread : String → Option (List String)) (now : Nat) :
    ∀ (files : List (String × FileRec)) (th : List (String × HandleRec)) (e : String),
      (files.map Prod.fst).Nodup →
      (extract_run spread now th files).2.2 = some e →
      ∃ fid fd,
        files.lookup fid = some fd ∧ fd.processed = false ∧ spread fid = none ∧
        (extract_run spread now th files).1.lookup fid = some fd ∧
        (∀ h r, (extract_run spread now th files).2.1.lookup h = some r →
          r.sheet = fid → th.lookup h = some r) := by
  intro files
  induction files with
  | nil => intro th e _ herr; cases herr
  | cons p rest ih =>
    obtain ⟨fid0, fd0⟩ := p
    intro th e hnd herr
    rw [List.map_cons, List.nodup_cons] at hnd
    obtain ⟨hfid0, hndrest⟩ := hnd
    cases hp : fd0.processed with
    | true =>
      have hstep : process_file spread now fid0 fd0 th = (fd0, th, none) := by
        simp [process_file, hp]
      rw [extract_run, hstep] at herr ⊢
      simp only at herr ⊢
      obtain ⟨fid, fd, hlk, hpr, hsp, hout, hth⟩ := ih th e hndrest herr
      have hne : (fid == fid0) = false := by
        refine beq_eq_false_iff_ne.mpr fun heq => hfid0 ?_
        rw [← heq]
        exact lookup_some_mem_keys rest fid fd hlk
      refine ⟨fid, fd, ?_, hpr, hsp, ?_, hth⟩
      · rw [List.lookup_cons, hne]; exact hlk
      · rw [List.lookup_cons, hne]; exact hout
    | false =>
      cases hsp0 : spread fid0 with
      | none =>
        have hstep : process_file spread now fid0 fd0 th
            = (fd0, th, some ("extraction failed for " ++ fid0)) := by
          simp [process_file, hp, hsp0]
        rw [extract_run, hstep] at herr ⊢
        simp only at herr ⊢
        refine ⟨fid0, fd0, List.lookup_cons_self, hp, hsp0, List.lookup_cons_self,
          fun h r hl _ => hl⟩
      | some cells =>
        have hstep : process_file spread now fid0 fd0 th
            = ({fd0 with processed := true},
               import_handles fid0 fd0.createdDate now (extract_twitter_handles cells) th,
               none) := by
          simp [process_file, hp, hsp0]
        rw [extract_run, hstep] at herr ⊢
        simp only at herr ⊢
        obtain ⟨fid, fd, hlk, hpr, hsp, hout, hth⟩ := ih _ e hndrest herr
        have hne : (fid == fid0) = false := by
          refine beq_eq_false_iff_ne.mpr fun heq => hfid0 ?_
          rw [← heq]
          exact lookup_some_mem_keys rest fid fd hlk
        refine ⟨fid, fd, ?_, hpr, hsp, ?_, ?_⟩
        · rw [List.lookup_cons, hne]; exact hlk
        · rw [List.lookup_cons, hne]; exact hout
        · intro h r hl hsheet
          rcases import_handles_lookup fid0 fd0.createdDate now
              (extract_twitter_handles cells) th h r (hth h r hl hsheet) with hin | hsh
          · exact hin
          · exact absurd (hsheet.symm.trans hsh) (beq_eq_false_iff_ne.mp hne)

/-- Witness for C5: one unprocessed file whose column fetch fails. -/
theorem C5_witness :
    ∃ fid fd,
      ([("F1", (⟨"S 1", 5, false⟩ : FileRec))].lookup fid = some fd) ∧
      fd.processed = false ∧
      (fun _ : String => (none : Option (List String))) fid = none ∧
      ((extract_run (fun _ => none) 9 [] [("F1", ⟨"S 1", 5, false⟩)]).1.lookup fid
        = some fd) ∧
      (∀ h r,
        (extract_run (fun _ => none) 9 [] [("F1", ⟨"S 1", 5, false⟩)]).2.1.lookup h
            = some r →
        r.sheet = fid → ([] : List (String × HandleRec)).lookup h = some r) :=
  C5_extraction_atomic (fun _ => none) 9 [("F1", ⟨"S 1", 5, false⟩)] []
    "extraction failed for F1" (by decide) (by decide)

/-! ### Stage Runner: claims C1, C4, C3 -/

/-- C1 counterexample: when the transport reports duplicate content for the
stage-1 send to handle `foo`, `send_tweet` swallows the error (prints, sleeps
and returns), so `tweet_everything` still stamps `first_tweet_at` — the
handle's stage fields do *not* remain unchanged. -/
theorem C1_counterexample :
    (tweet_everything (fun _ _ => TransportRes.duplicateContent) 5
        [("foo", ⟨0, 0, "F1", none, none⟩)]).handles
      = [("foo", ⟨0, 0, "F1", some 5, none⟩)] ∧
    (tweet_everything (fun _ _ => TransportRes.duplicateContent) 5
        [("foo", ⟨0, 0, "F1", none, none⟩)]).handles
      ≠ [("foo", ⟨0, 0, "F1", none, none⟩)] := by
  decide

/-- C1 amended: a duplicate-content reply to the send for the head handle's
pending stage is treated exactly like a success — `send_tweet` returns
normally, the Stage Runner stamps that stage's timestamp (the stage is marked
sent, counted against the cap, and not retried on a later run), and the run
continues with the remaining handles. -/
theorem C1_amended_duplicate_marks_stage
    (oracle : String → Nat → TransportRes) (now cap : Nat) (h : String)
    (rec : HandleRec) (rest : List (String × HandleRec)) (hcap : 1 < cap) :
    (oracle h 1 = TransportRes.duplicateContent → rec.first_tweet_at = none →
      tweet_loop oracle now cap 0 ((h, rec) :: rest) =
        ⟨(h, {rec with first_tweet_at := some now})
            :: (tweet_loop oracle now cap 1 rest).handles,
          (tweet_loop oracle now cap 1 rest).count,
          (h, 1) :: (tweet_loop oracle now cap 1 rest).sends,
          (tweet_loop oracle now cap 1 rest).error⟩) ∧
    (oracle h 2 = TransportRes.duplicateContent → rec.first_tweet_at ≠ none →
      rec.second_tweet_at = none →
      tweet_loop oracle now cap 0 ((h, rec) :: rest) =
        ⟨(h, {rec with second_tweet_at := some now})
            :: (tweet_loop oracle now cap 1 rest).handles,
          (tweet_loop oracle now cap 1 rest).count,
          (h, 2) :: (tweet_loop oracle now cap 1 rest).sends,
          (tweet_loop oracle now cap 1 rest).error⟩) := by
  have hnotge : ¬ (0 + 1 ≥ cap) := by omega
  constructor
  · intro hdup h1
    simp only [tweet_loop, h1, hdup, send_tweet, if_neg hnotge]
  · intro hdup h1 h2
    obtain ⟨t, ht⟩ := Option.ne_none_iff_exists'.mp h1
    simp only [tweet_loop, ht, h2, hdup, send_tweet, if_neg hnotge]

/-- Witness for C1 (amended): duplicate on the head handle's stage-1 send,
success on the next handle. -/
theorem C1_witness :
    tweet_loop (fun _ _ => TransportRes.duplicateContent) 3 10 0
        [("a", ⟨0, 0, "F1", none, none⟩), ("b", ⟨0, 0, "F1", none, none⟩)] =
      ⟨("a", ⟨0, 0, "F1", some 3, none⟩)
          :: (tweet_loop (fun _ _ => TransportRes.duplicateContent) 3 10 1
                [("b", ⟨0, 0, "F1", none, none⟩)]).handles,
        (tweet_loop (fun _ _ => TransportRes.duplicateContent) 3 10 1
            [("b", ⟨0, 0, "F1", none, none⟩)]).count,
        ("a", 1) :: (tweet_loop (fun _ _ => TransportRes.duplicateContent) 3 10 1
            [("b", ⟨0, 0, "F1", none, none⟩)]).sends,
        (tweet_loop (fun _ _ => TransportRes.duplicateContent) 3 10 1
            [("b", ⟨0, 0, "F1", none, none⟩)]).error⟩ :=
  (C1_amended_duplicate_marks_stage (fun _ _ => TransportRes.duplicateContent)
    3 10 "a" ⟨0, 0, "F1", none, none⟩ [("b", ⟨0, 0, "F1", none, none⟩)]
    (by omega)).1 rfl rfl

/-- A handle is eligible for a send in the next run if it has not yet
reached the terminal STAGE2_SENT state. -/
def stage_eligible (r : HandleRec) : Bool :=
  r.first_tweet_at.isNone || r.second_tweet_at.isNone

/-- Number of eligible handles in a registry. -/
def eligible_count (db : List (String × HandleRec)) : Nat :=
  (db.filter fun p => stage_eligible p.2).length

/-- Cap behaviour of the Stage Runner loop, starting from an arbitrary
`tweet_count`: when no send fails fatally and strictly more eligible handles
remain than the cap allows, the loop performs exactly the remaining number of
sends and then breaks, leaving an untouched suffix of the registry whose
eligible handles are exactly those denied by the cap. -/
theorem tweet_loop_cap_split (oracle : String → Nat → TransportRes) (now cap : Nat)
    (hok : ∀ h s m, oracle h s ≠ TransportRes.otherError m) :
    ∀ (db : List (String × HandleRec)) (count : Nat),
      count < cap → cap < count + eligible_count db →
      (tweet_loop oracle now cap count db).count = cap ∧
      (tweet_loop oracle now cap count db).error = none ∧
      (tweet_loop oracle now cap count db).sends.length = cap - count ∧
      ∃ l₁ l₂ l₁', db = l₁ ++ l₂ ∧
        (tweet_loop oracle now cap count db).handles = l₁' ++ l₂ ∧
        l₁'.length = l₁.length ∧
        eligible_count l₂ = count + eligible_count db - cap := by
  intro db
  induction db with
  | nil =>
    intro count hlt hgt
    rw [show eligible_count [] = 0 from rfl] at hgt
    omega
  | cons p rest ih =>
    obtain ⟨h, rec⟩ := p
    intro count hlt hgt
    cases hf : rec.first_tweet_at with
    | none =>
      have helig : stage_eligible rec = true := by
        simp [stage_eligible, hf]
      have hcount : eligible_count ((h, rec) :: rest) = eligible_count rest + 1 := by
        simp [eligible_count, helig]
      cases ho : oracle h 1 with
      | otherError m => exact absurd ho (hok h 1 m)
      | success =>
        simp only [tweet_loop, hf, ho, send_tweet]
        by_cases hc : count + 1 ≥ cap
        · have hceq : count + 1 = cap := by omega
          rw [if_pos hc]
          refine ⟨by simpa using hceq, rfl, by simp; omega,
            [(h, rec)], rest, [(h, {rec with first_tweet_at := some now})],
            rfl, rfl, rfl, by omega⟩
        · rw [if_neg hc]
          obtain ⟨hcnt, herr, hsends, l₁, l₂, l₁', hsplit, hout, hlen, helig2⟩ :=
            ih (count + 1) (by omega) (by omega)
          refine ⟨hcnt, herr, ?_, (h, rec) :: l₁, l₂,
            (h, {rec with first_tweet_at := some now}) :: l₁', ?_, ?_, ?_, ?_⟩
          · simp only [List.length_cons, hsends]; omega
          · rw [hsplit]; rfl
          · simp only [hout]; rfl
          · simp only [List.length_cons, hlen]
          · omega
      | duplicateContent =>
        simp only [tweet_loop, hf, ho, send_tweet]
        by_cases hc : count + 1 ≥ cap
        · have hceq : count + 1 = cap := by omega
          rw [if_pos hc]
          refine ⟨by simpa using hceq, rfl, by simp; omega,
            [(h, rec)], rest, [(h, {rec with first_tweet_at := some now})],
            rfl, rfl, rfl, by omega⟩
        · rw [if_neg hc]
          obtain ⟨hcnt, herr, hsends, l₁, l₂, l₁', hsplit, hout, hlen, helig2⟩ :=
            ih (count + 1) (by omega) (by omega)
          refine ⟨hcnt, herr, ?_, (h, rec) :: l₁, l₂,
            (h, {rec with first_tweet_at := some now}) :: l₁', ?_, ?_, ?_, ?_⟩
          · simp only [List.length_cons, hsends]; omega
          · rw [hsplit]; rfl
          · simp only [hout]; rfl
          · simp only [List.length_cons, hlen]
          · omega
    | some t1 =>
      cases hs : rec.second_tweet_at with
      | none =>
        have helig : stage_eligible rec = true := by
          simp [stage_eligible, hs]
        have hcount : eligible_count ((h, rec) :: rest) = eligible_count rest + 1 := by
          simp [eligible_count, helig]
        cases ho : oracle h 2 with
        | otherError m => exact absurd ho (hok h 2 m)
        | success =>
          simp only [tweet_loop, hf, hs, ho, send_tweet]
          by_cases hc : count + 1 ≥ cap
          · have hceq : count + 1 = cap := by omega
            rw [if_pos hc]
            refine ⟨by simpa using hceq, rfl, by simp; omega,
              [(h, rec)], rest, [(h, {rec with first_tweet_at := some t1, second_tweet_at := some now})],
              rfl, rfl, rfl, by omega⟩
          · rw [if_neg hc]
            obtain ⟨hcnt, herr, hsends, l₁, l₂, l₁', hsplit, hout, hlen, helig2⟩ :=
              ih (count + 1) (by omega) (by omega)
            refine ⟨hcnt, herr, ?_, (h, rec) :: l₁, l₂,
              (h, {rec with first_tweet_at := some t1, second_tweet_at := some now}) :: l₁', ?_, ?_, ?_, ?_⟩
            · simp only [List.length_cons, hsends]; omega
            · rw [hsplit]; rfl
            · simp only [hout]; rfl
            · simp only [List.length_cons, hlen]
            · omega
        | duplicateContent =>
          simp only [tweet_loop, hf, hs, ho, send_tweet]
          by_cases hc : count + 1 ≥ cap
          · have hceq : count + 1 = cap := by omega
            rw [if_pos hc]
            refine ⟨by simpa using hceq, rfl, by simp; omega,
              [(h, rec)], rest, [(h, {rec with first_tweet_at := some t1, second_tweet_at := some now})],
              rfl, rfl, rfl, by omega⟩
          · rw [if_neg hc]
            obtain ⟨hcnt, herr, hsends, l₁, l₂, l₁', hsplit, hout, hlen, helig2⟩ :=
              ih (count + 1) (by omega) (by omega)
            refine ⟨hcnt, herr, ?_, (h, rec) :: l₁, l₂,
              (h, {rec with first_tweet_at := some t1, second_tweet_at := some now}) :: l₁', ?_, ?_, ?_, ?_⟩
            · simp only [List.length_cons, hsends]; omega
            · rw [hsplit]; rfl
            · simp only [hout]; rfl
            · simp only [List.length_cons, hlen]
            · omega
      | some t2 =>
        have helig : stage_eligible rec = false := by
          simp [stage_eligible, hf, hs]
        have hcount : eligible_count ((h, rec) :: rest) = eligible_count rest := by
          simp [eligible_count, helig]
        simp only [tweet_loop, hf, hs]
        rw [if_neg (by omega : ¬ count ≥ cap)]
        obtain ⟨hcnt, herr, hsends, l₁, l₂, l₁', hsplit, hout, hlen, helig2⟩ :=
          ih count hlt (by omega)
        refine ⟨hcnt, herr, hsends, (h, rec) :: l₁, l₂, (h, rec) :: l₁', ?_, ?_, ?_, ?_⟩
        · rw [hsplit]; rfl
        · simp only [hout]; rfl
        · simp only [List.length_cons, hlen]
        · omega

/-- C4: with a positive per-run cap `cap` and strictly more than `cap`
eligible handles (and no fatal transport error), one Stage Runner run
performs exactly `cap` sends and then stops: the registry splits into a
touched initial segment and an untouched tail that is returned verbatim,
and that untouched tail still contains exactly `eligible_count db - cap`
eligible handles for the next run. -/
theorem C4_per_run_cap (oracle : String → Nat → TransportRes) (now cap : Nat)
    (db : List (String × HandleRec))
    (hok : ∀ h s m, oracle h s ≠ TransportRes.otherError m)
    (hcap : 0 < cap) (helig : cap < eligible_count db) :
    (tweet_loop oracle now cap 0 db).sends.length = cap ∧
    (tweet_loop oracle now cap 0 db).count = cap ∧
    (tweet_loop oracle now cap 0 db).error = none ∧
    ∃ l₁ l₂ l₁', db = l₁ ++ l₂ ∧
      (tweet_loop oracle now cap 0 db).handles = l₁' ++ l₂ ∧
      l₁'.length = l₁.length ∧
      eligible_count l₂ = eligible_count db - cap := by
  obtain ⟨hcnt, herr, hsends, l₁, l₂, l₁', hsplit, hout, hlen, helig2⟩ :=
    tweet_loop_cap_split oracle now cap hok db 0 hcap (by omega)
  exact ⟨by simpa using hsends, hcnt, herr, l₁, l₂, l₁', hsplit, hout, hlen,
    by simpa using helig2⟩

/-- Witness for C4: cap 1, two eligible handles, transport always succeeds. -/
theorem C4_witness :
    (tweet_loop (fun _ _ => TransportRes.success) 2 1 0
        [("a", ⟨0, 0, "F", none, none⟩), ("b", ⟨0, 0, "F", none, none⟩)]).sends.length = 1 ∧
    (tweet_loop (fun _ _ => TransportRes.success) 2 1 0
        [("a", ⟨0, 0, "F", none, none⟩), ("b", ⟨0, 0, "F", none, none⟩)]).count = 1 ∧
    (tweet_loop (fun _ _ => TransportRes.success) 2 1 0
        [("a", ⟨0, 0, "F", none, none⟩), ("b", ⟨0, 0, "F", none, none⟩)]).error = none ∧
    ∃ l₁ l₂ l₁',
      [("a", (⟨0, 0, "F", none, none⟩ : HandleRec)), ("b", ⟨0, 0, "F", none, none⟩)]
        = l₁ ++ l₂ ∧
      (tweet_loop (fun _ _ => TransportRes.success) 2 1 0
          [("a", ⟨0, 0, "F", none, none⟩), ("b", ⟨0, 0, "F", none, none⟩)]).handles
        = l₁' ++ l₂ ∧
      l₁'.length = l₁.length ∧
      eligible_count l₂ =
        eligible_count [("a", (⟨0, 0, "F", none, none⟩ : HandleRec)),
          ("b", ⟨0, 0, "F", none, none⟩)] - 1 :=
  C4_per_run_cap (fun _ _ => TransportRes.success) 2 1
    [("a", ⟨0, 0, "F", none, none⟩), ("b", ⟨0, 0, "F", none, none⟩)]
    (fun _ _ _ hc => TransportRes.noConfusion hc) (by decide) (by decide)

/-! ### Stage invariants (claim C3): per-run step relation -/

/-- How one Stage Runner run may change a single handle entry: leave it
alone, stamp a first stage-1 timestamp, or stamp a first stage-2 timestamp
(only when stage 1 was already stamped). -/
def handleStep (now : Nat) (p q : String × HandleRec) : Prop :=
  q.1 = p.1 ∧
  (q.2 = p.2 ∨
   (p.2.first_tweet_at = none ∧ q.2 = {p.2 with first_tweet_at := some now}) ∨
   (p.2.first_tweet_at ≠ none ∧ p.2.second_tweet_at = none ∧
     q.2 = {p.2 with second_tweet_at := some now}))

theorem handleStep_refl (now : Nat) (p : String × HandleRec) : handleStep now p p :=
  ⟨rfl, Or.inl rfl⟩

theorem forall2_handleStep_refl (now : Nat) :
    ∀ l : List (String × HandleRec), List.Forall₂ (handleStep now) l l
  | [] => List.Forall₂.nil
  | p :: rest => List.Forall₂.cons (handleStep_refl now p) (forall2_handleStep_refl now rest)

/-- One Stage Runner run relates input and output registries pointwise by
`handleStep`. -/
theorem tweet_loop_forall2 (oracle : String → Nat → TransportRes) (now cap : Nat) :
    ∀ (count : Nat) (db : List (String × HandleRec)),
      List.Forall₂ (handleStep now) db (tweet_loop oracle now cap count db).handles := by
  intro count db
  induction db generalizing count with
  | nil => exact List.Forall₂.nil
  | cons p rest ih =>
    obtain ⟨h, rec⟩ := p
    cases hf : rec.first_tweet_at with
    | none =>
      cases ho : oracle h 1 with
      | otherError m =>
        simp only [tweet_loop, hf, ho, send_tweet]
        exact forall2_handleStep_refl now _
      | success =>
        simp only [tweet_loop, hf, ho, send_tweet]
        by_cases hc : count + 1 ≥ cap
        · rw [if_pos hc]
          exact List.Forall₂.cons ⟨rfl, Or.inr (Or.inl ⟨hf, rfl⟩)⟩
            (forall2_handleStep_refl now rest)
        · rw [if_neg hc]
          exact List.Forall₂.cons ⟨rfl, Or.inr (Or.inl ⟨hf, rfl⟩)⟩ (ih (count + 1))
      | duplicateContent =>
        simp only [tweet_loop, hf, ho, send_tweet]
        by_cases hc : count + 1 ≥ cap
        · rw [if_pos hc]
          exact List.Forall₂.cons ⟨rfl, Or.inr (Or.inl ⟨hf, rfl⟩)⟩
            (forall2_handleStep_refl now rest)
        · rw [if_neg hc]
          exact List.Forall₂.cons ⟨rfl, Or.inr (Or.inl ⟨hf, rfl⟩)⟩ (ih (count + 1))
    | some t1 =>
      have hfne : rec.first_tweet_at ≠ none := by rw [hf]; exact Option.some_ne_none t1
      cases hs : rec.second_tweet_at with
      | none =>
        cases ho : oracle h 2 with
        | otherError m =>
          simp only [tweet_loop, hf, hs, ho, send_tweet]
          exact forall2_handleStep_refl now _
        | success =>
          simp only [tweet_loop, hf, hs, ho, send_tweet]
          by_cases hc : count + 1 ≥ cap
          · rw [if_pos hc]
            refine List.Forall₂.cons ⟨rfl, Or.inr (Or.inr ⟨hfne, hs, ?_⟩)⟩
              (forall2_handleStep_refl now rest)
            simp [hf]
          · rw [if_neg hc]
            refine List.Forall₂.cons ⟨rfl, Or.inr (Or.inr ⟨hfne, hs, ?_⟩)⟩ (ih (count + 1))
            simp [hf]
        | duplicateContent =>
          simp only [tweet_loop, hf, hs, ho, send_tweet]
          by_cases hc : count + 1 ≥ cap
          · rw [if_pos hc]
            refine List.Forall₂.cons ⟨rfl, Or.inr (Or.inr ⟨hfne, hs, ?_⟩)⟩
              (forall2_handleStep_refl now rest)
            simp [hf]
          · rw [if_neg hc]
            refine List.Forall₂.cons ⟨rfl, Or.inr (Or.inr ⟨hfne, hs, ?_⟩)⟩ (ih (count + 1))
            simp [hf]
      | some t2 =>
        simp only [tweet_loop, hf, hs]
        by_cases hc : count ≥ cap
        · rw [if_pos hc]
          exact forall2_handleStep_refl now _
        · rw [if_neg hc]
          exact List.Forall₂.cons (handleStep_refl now _) (ih count)

/-! ### Generic list infrastructure for the multi-run argument -/

theorem forall2_mem_left {α β : Type} {R : α → β → Prop} :
    ∀ {l : List α} {l' : List β}, List.Forall₂ R l l' →
      ∀ a ∈ l, ∃ b ∈ l', R a b := by
  intro l l' hf
  induction hf with
  | nil => intro a ha; cases ha
  | cons hab htail ih =>
    intro a ha
    rcases List.mem_cons.mp ha with rfl | ha'
    · exact ⟨_, List.mem_cons_self _ _, hab⟩
    · obtain ⟨b, hb, hr⟩ := ih a ha'
      exact ⟨b, List.mem_cons_of_mem _ hb, hr⟩

theorem forall2_mem_right {α β : Type} {R : α → β → Prop} :
    ∀ {l : List α} {l' : List β}, List.Forall₂ R l l' →
      ∀ b ∈ l', ∃ a ∈ l, R a b := by
  intro l l' hf
  induction hf with
  | nil => intro b hb; cases hb
  | cons hab htail ih =>
    intro b hb
    rcases List.mem_cons.mp hb with rfl | hb'
    · exact ⟨_, List.mem_cons_self _ _, hab⟩
    · obtain ⟨a, ha, hr⟩ := ih b hb'
      exact ⟨a, List.mem_cons_of_mem _ ha, hr⟩

theorem forall2_comp {α : Type} {R S T : α → α → Prop}
    (hcomp : ∀ a b c, R a b → S b c → T a c) :
    ∀ {l m n : List α}, List.Forall₂ R l m → List.Forall₂ S m n →
      List.Forall₂ T l n := by
  intro l m n hlm
  induction hlm generalizing n with
  | nil =>
    intro hmn
    cases hmn
    exact List.Forall₂.nil
  | cons hab htail ih =>
    intro hmn
    cases hmn with
    | cons hbc htail' => exact List.Forall₂.cons (hcomp _ _ _ hab hbc) (ih htail')

theorem forall2_keys {β : Type} {R : String × β → String × β → Prop}
    (hR : ∀ p q, R p q → q.1 = p.1) :
    ∀ {l l' : List (String × β)}, List.Forall₂ R l l' →
      l'.map Prod.fst = l.map Prod.fst := by
  intro l l' hf
  induction hf with
  | nil => rfl
  | cons hab htail ih =>
    simp only [List.map_cons, ih, hR _ _ hab]

theorem keys_nodup_lookup_unique {β : Type} :
    ∀ (l : List (String × β)), (l.map Prod.fst).Nodup →
      ∀ (h : String) (a b : β), (h, a) ∈ l → (h, b) ∈ l → a = b := by
  intro l
  induction l with
  | nil => intro _ h a b ha; cases ha
  | cons p rest ih =>
    obtain ⟨k, v⟩ := p
    intro hnd h a b ha hb
    rw [List.map_cons, List.nodup_cons] at hnd
    obtain ⟨hk, hnd'⟩ := hnd
    rcases List.mem_cons.mp ha with heqa | ha' <;>
      rcases List.mem_cons.mp hb with heqb | hb'
    · rw [Prod.mk.injEq] at heqa heqb
      rw [heqa.2, heqb.2]
    · rw [Prod.mk.injEq] at heqa
      have hmem : h ∈ rest.map Prod.fst := List.mem_map_of_mem Prod.fst hb'
      rw [heqa.1] at hmem
      exact absurd hmem hk
    · rw [Prod.mk.injEq] at heqb
      have hmem : h ∈ rest.map Prod.fst := List.mem_map_of_mem Prod.fst ha'
      rw [heqb.1] at hmem
      exact absurd hmem hk
    · exact ih hnd' h a b ha' hb'

/-! ### Sends of one Stage Runner run -/

/-- The handles of the completed sends of one run form a sublist of the
registry's keys (each handle is sent to at most once per run). -/
theorem tweet_loop_sends_sub (oracle : String → Nat → TransportRes) (now cap : Nat) :
    ∀ (count : Nat) (db : List (String × HandleRec)),
      ((tweet_loop oracle now cap count db).sends.map Prod.fst).Sublist
        (db.map Prod.fst) := by
  intro count db
  induction db generalizing count with
  | nil => exact List.Sublist.refl _
  | cons p rest ih =>
    obtain ⟨h, rec⟩ := p
    cases hf : rec.first_tweet_at with
    | none =>
      cases ho : oracle h 1 with
      | otherError m =>
        simp only [tweet_loop, hf, ho, send_tweet]
        exact List.nil_sublist _
      | success =>
        simp only [tweet_loop, hf, ho, send_tweet]
        by_cases hc : count + 1 ≥ cap
        · rw [if_pos hc]
          exact (List.nil_sublist _).cons₂ h
        · rw [if_neg hc]
          exact (ih (count + 1)).cons₂ h
      | duplicateContent =>
        simp only [tweet_loop, hf, ho, send_tweet]
        by_cases hc : count + 1 ≥ cap
        · rw [if_pos hc]
          exact (List.nil_sublist _).cons₂ h
        · rw [if_neg hc]
          exact (ih (count + 1)).cons₂ h
    | some t1 =>
      cases hs : rec.second_tweet_at with
      | none =>
        cases ho : oracle h 2 with
        | otherError m =>
          simp only [tweet_loop, hf, hs, ho, send_tweet]
          exact List.nil_sublist _
        | success =>
          simp only [tweet_loop, hf, hs, ho, send_tweet]
          by_cases hc : count + 1 ≥ cap
          · rw [if_pos hc]
            exact (List.nil_sublist _).cons₂ h
          · rw [if_neg hc]
            exact (ih (count + 1)).cons₂ h
        | duplicateContent =>
          simp only [tweet_loop, hf, hs, ho, send_tweet]
          by_cases hc : count + 1 ≥ cap
          · rw [if_pos hc]
            exact (List.nil_sublist _).cons₂ h
          · rw [if_neg hc]
            exact (ih (count + 1)).cons₂ h
      | some t2 =>
        simp only [tweet_loop, hf, hs]
        by_cases hc : count ≥ cap
        · rw [if_pos hc]
          exact List.nil_sublist _
        · rw [if_neg hc]
          exact (ih count).cons h

/-- Every completed send of a run is stage 1 or stage 2, addressed to a
handle whose corresponding field was still unset at the start of the run. -/
theorem tweet_loop_sends_pre (oracle : String → Nat → TransportRes) (now cap : Nat) :
    ∀ (count : Nat) (db : List (String × HandleRec)) (h : String) (s : Nat),
      (h, s) ∈ (tweet_loop oracle now cap count db).sends →
      (s = 1 ∨ s = 2) ∧ ∃ r, (h, r) ∈ db ∧
        (s = 1 → r.first_tweet_at = none) ∧ (s = 2 → r.second_tweet_at = none) := by
  intro count db
  induction db generalizing count with
  | nil => intro h s hm; cases hm
  | cons p rest ih =>
    obtain ⟨h0, rec⟩ := p
    intro h s hm
    cases hf : rec.first_tweet_at with
    | none =>
      cases ho : oracle h0 1 with
      | otherError m =>
        rw [show (tweet_loop oracle now cap count ((h0, rec) :: rest)).sends = [] by
          simp only [tweet_loop, hf, ho, send_tweet]] at hm
        cases hm
      | success =>
        simp only [tweet_loop, hf, ho, send_tweet] at hm
        by_cases hc : count + 1 ≥ cap
        · rw [if_pos hc] at hm
          simp only [List.mem_singleton, Prod.mk.injEq] at hm
          exact ⟨Or.inl hm.2, rec, by rw [← hm.1]; exact List.mem_cons_self _ _,
            fun _ => hf, fun h2 => by rw [hm.2] at h2; exact absurd h2 (by decide)⟩
        · rw [if_neg hc] at hm
          simp only [List.mem_cons, Prod.mk.injEq] at hm
          rcases hm with ⟨rfl, rfl⟩ | hm'
          · exact ⟨Or.inl rfl, rec, List.mem_cons_self _ _, fun _ => hf,
              fun h2 => by omega⟩
          · obtain ⟨hst, r, hr, h1, h2⟩ := ih (count + 1) h s hm'
            exact ⟨hst, r, List.mem_cons_of_mem _ hr, h1, h2⟩
      | duplicateContent =>
        simp only [tweet_loop, hf, ho, send_tweet] at hm
        by_cases hc : count + 1 ≥ cap
        · rw [if_pos hc] at hm
          simp only [List.mem_singleton, Prod.mk.injEq] at hm
          exact ⟨Or.inl hm.2, rec, by rw [← hm.1]; exact List.mem_cons_self _ _,
            fun _ => hf, fun h2 => by rw [hm.2] at h2; exact absurd h2 (by decide)⟩
        · rw [if_neg hc] at hm
          simp only [List.mem_cons, Prod.mk.injEq] at hm
          rcases hm with ⟨rfl, rfl⟩ | hm'
          · exact ⟨Or.inl rfl, rec, List.mem_cons_self _ _, fun _ => hf,
              fun h2 => by omega⟩
          · obtain ⟨hst, r, hr, h1, h2⟩ := ih (count + 1) h s hm'
            exact ⟨hst, r, List.mem_cons_of_mem _ hr, h1, h2⟩
    | some t1 =>
      cases hs2 : rec.second_tweet_at with
      | none =>
        cases ho : oracle h0 2 with
        | otherError m =>
          rw [show (tweet_loop oracle now cap count ((h0, rec) :: rest)).sends = [] by
            simp only [tweet_loop, hf, hs2, ho, send_tweet]] at hm
          cases hm
        | success =>
          simp only [tweet_loop, hf, hs2, ho, send_tweet] at hm
          by_cases hc : count + 1 ≥ cap
          · rw [if_pos hc] at hm
            simp only [List.mem_singleton, Prod.mk.injEq] at hm
            exact ⟨Or.inr hm.2, rec, by rw [← hm.1]; exact List.mem_cons_self _ _,
              fun h1 => by rw [hm.2] at h1; exact absurd h1 (by decide), fun _ => hs2⟩
          · rw [if_neg hc] at hm
            simp only [List.mem_cons, Prod.mk.injEq] at hm
            rcases hm with ⟨rfl, rfl⟩ | hm'
            · exact ⟨Or.inr rfl, rec, List.mem_cons_self _ _, fun h1 => by omega,
                fun _ => hs2⟩
            · obtain ⟨hst, r, hr, h1, h2⟩ := ih (count + 1) h s hm'
              exact ⟨hst, r, List.mem_cons_of_mem _ hr, h1, h2⟩
        | duplicateContent =>
          simp only [tweet_loop, hf, hs2, ho, send_tweet] at hm
          by_cases hc : count + 1 ≥ cap
          · rw [if_pos hc] at hm
            simp only [List.mem_singleton, Prod.mk.injEq] at hm
            exact ⟨Or.inr hm.2, rec, by rw [← hm.1]; exact List.mem_cons_self _ _,
              fun h1 => by rw [hm.2] at h1; exact absurd h1 (by decide), fun _ => hs2⟩
          · rw [if_neg hc] at hm
            simp only [List.mem_cons, Prod.mk.injEq] at hm
            rcases hm with ⟨rfl, rfl⟩ | hm'
            · exact ⟨Or.inr rfl, rec, List.mem_cons_self _ _, fun h1 => by omega,
                fun _ => hs2⟩
            · obtain ⟨hst, r, hr, h1, h2⟩ := ih (count + 1) h s hm'
              exact ⟨hst, r, List.mem_cons_of_mem _ hr, h1, h2⟩
      | some t2 =>
        simp only [tweet_loop, hf, hs2] at hm
        by_cases hc : count ≥ cap
        · rw [if_pos hc] at hm
          cases hm
        · rw [if_neg hc] at hm
          obtain ⟨hst, r, hr, h1, h2⟩ := ih count h s hm
          exact ⟨hst, r, List.mem_cons_of_mem _ hr, h1, h2⟩

/-- Every completed send of a run leaves the corresponding stage field
stamped in the run's output registry (the stamp commits in the same
transaction as the send). -/
theorem tweet_loop_sends_marked (oracle : String → Nat → TransportRes) (now cap : Nat) :
    ∀ (count : Nat) (db : List (String × HandleRec)) (h : String) (s : Nat),
      (h, s) ∈ (tweet_loop oracle now cap count db).sends →
      ∃ r', (h, r') ∈ (tweet_loop oracle now cap count db).handles ∧
        (s = 1 → r'.first_tweet_at ≠ none) ∧ (s = 2 → r'.second_tweet_at ≠ none) := by
  intro count db
  induction db generalizing count with
  | nil => intro h s hm; cases hm
  | cons p rest ih =>
    obtain ⟨h0, rec⟩ := p
    intro h s hm
    cases hf : rec.first_tweet_at with
    | none =>
      cases ho : oracle h0 1 with
      | otherError m =>
        rw [show (tweet_loop oracle now cap count ((h0, rec) :: rest)).sends = [] by
          simp only [tweet_loop, hf, ho, send_tweet]] at hm
        cases hm
      | success =>
        simp only [tweet_loop, hf, ho, send_tweet] at hm ⊢
        by_cases hc : count + 1 ≥ cap
        · rw [if_pos hc] at hm ⊢
          simp only [List.mem_singleton, Prod.mk.injEq] at hm
          refine ⟨{rec with first_tweet_at := some now}, ?_,
            fun _ => Option.some_ne_none now,
            fun h2 => by rw [hm.2] at h2; exact absurd h2 (by decide)⟩
          rw [← hm.1]
          exact List.mem_cons_self _ _
        · rw [if_neg hc] at hm ⊢
          simp only [List.mem_cons, Prod.mk.injEq] at hm
          rcases hm with ⟨rfl, rfl⟩ | hm'
          · exact ⟨{rec with first_tweet_at := some now}, List.mem_cons_self _ _,
              fun _ => Option.some_ne_none now, fun h2 => by omega⟩
          · obtain ⟨r', hr', h1, h2⟩ := ih (count + 1) h s hm'
            exact ⟨r', List.mem_cons_of_mem _ hr', h1, h2⟩
      | duplicateContent =>
        simp only [tweet_loop, hf, ho, send_tweet] at hm ⊢
        by_cases hc : count + 1 ≥ cap
        · rw [if_pos hc] at hm ⊢
          simp only [List.mem_singleton, Prod.mk.injEq] at hm
          refine ⟨{rec with first_tweet_at := some now}, ?_,
            fun _ => Option.some_ne_none now,
            fun h2 => by rw [hm.2] at h2; exact absurd h2 (by decide)⟩
          rw [← hm.1]
          exact List.mem_cons_self _ _
        · rw [if_neg hc] at hm ⊢
          simp only [List.mem_cons, Prod.mk.injEq] at hm
          rcases hm with ⟨rfl, rfl⟩ | hm'
          · exact ⟨{rec with first_tweet_at := some now}, List.mem_cons_self _ _,
              fun _ => Option.some_ne_none now, fun h2 => by omega⟩
          · obtain ⟨r', hr', h1, h2⟩ := ih (count + 1) h s hm'
            exact ⟨r', List.mem_cons_of_mem _ hr', h1, h2⟩
    | some t1 =>
      cases hs2 : rec.second_tweet_at with
      | none =>
        cases ho : oracle h0 2 with
        | otherError m =>
          rw [show (tweet_loop oracle now cap count ((h0, rec) :: rest)).sends = [] by
            simp only [tweet_loop, hf, hs2, ho, send_tweet]] at hm
          cases hm
        | success =>
          simp only [tweet_loop, hf, hs2, ho, send_tweet] at hm ⊢
          by_cases hc : count + 1 ≥ cap
          · rw [if_pos hc] at hm ⊢
            simp only [List.mem_singleton, Prod.mk.injEq] at hm
            refine ⟨{rec with first_tweet_at := some t1, second_tweet_at := some now}, ?_,
              fun h1 => by rw [hm.2] at h1; exact absurd h1 (by decide),
              fun _ => Option.some_ne_none now⟩
            rw [← hm.1]
            exact List.mem_cons_self _ _
          · rw [if_neg hc] at hm ⊢
            simp only [List.mem_cons, Prod.mk.injEq] at hm
            rcases hm with ⟨rfl, rfl⟩ | hm'
            · exact ⟨{rec with first_tweet_at := some t1, second_tweet_at := some now},
                List.mem_cons_self _ _, fun h1 => by omega,
                fun _ => Option.some_ne_none now⟩
            · obtain ⟨r', hr', h1, h2⟩ := ih (count + 1) h s hm'
              exact ⟨r', List.mem_cons_of_mem _ hr', h1, h2⟩
        | duplicateContent =>
          simp only [tweet_loop, hf, hs2, ho, send_tweet] at hm ⊢
          by_cases hc : count + 1 ≥ cap
          · rw [if_pos hc] at hm ⊢
            simp only [List.mem_singleton, Prod.mk.injEq] at hm
            refine ⟨{rec with first_tweet_at := some t1, second_tweet_at := some now}, ?_,
              fun h1 => by rw [hm.2] at h1; exact absurd h1 (by decide),
              fun _ => Option.some_ne_none now⟩
            rw [← hm.1]
            exact List.mem_cons_self _ _
          · rw [if_neg hc] at hm ⊢
            simp only [List.mem_cons, Prod.mk.injEq] at hm
            rcases hm with ⟨rfl, rfl⟩ | hm'
            · exact ⟨{rec with first_tweet_at := some t1, second_tweet_at := some now},
                List.mem_cons_self _ _, fun h1 => by omega,
                fun _ => Option.some_ne_none now⟩
            · obtain ⟨r', hr', h1, h2⟩ := ih (count + 1) h s hm'
              exact ⟨r', List.mem_cons_of_mem _ hr', h1, h2⟩
      | some t2 =>
        simp only [tweet_loop, hf, hs2] at hm ⊢
        by_cases hc : count ≥ cap
        · rw [if_pos hc] at hm
          cases hm
        · rw [if_neg hc] at hm ⊢
          obtain ⟨r', hr', h1, h2⟩ := ih count h s hm
          exact ⟨r', List.mem_cons_of_mem _ hr', h1, h2⟩

/-! ### Multi-run evolution -/

/-- How any number of Stage Runner runs may change a single handle entry:
the key is stable, stamped stage fields are final, and a terminal
(STAGE2_SENT) record never changes at all. -/
def handleEvolve (p q : String × HandleRec) : Prop :=
  q.1 = p.1 ∧
  (∀ t, p.2.first_tweet_at = some t → q.2.first_tweet_at = some t) ∧
  (∀ t, p.2.second_tweet_at = some t → q.2.second_tweet_at = some t) ∧
  (p.2.first_tweet_at ≠ none → p.2.second_tweet_at ≠ none → q.2 = p.2)

theorem handleStep_evolve (now : Nat) (p q : String × HandleRec)
    (h : handleStep now p q) : handleEvolve p q := by
  obtain ⟨hfst, hcase⟩ := h
  rcases hcase with heq | ⟨hfn, heq⟩ | ⟨hfne, hsn, heq⟩
  · refine ⟨hfst, ?_, ?_, ?_⟩
    · intro t ht; rw [heq]; exact ht
    · intro t ht; rw [heq]; exact ht
    · intro _ _; exact heq
  · refine ⟨hfst, ?_, ?_, ?_⟩
    · intro t ht; rw [hfn] at ht; exact Option.noConfusion ht
    · intro t ht; rw [heq]; exact ht
    · intro hne _; exact absurd hfn hne
  · refine ⟨hfst, ?_, ?_, ?_⟩
    · intro t ht; rw [heq]; exact ht
    · intro t ht; rw [hsn] at ht; exact Option.noConfusion ht
    · intro _ hne; exact absurd hsn hne

theorem handleEvolve_refl (p : String × HandleRec) : handleEvolve p p :=
  ⟨rfl, fun _ ht => ht, fun _ ht => ht, fun _ _ => rfl⟩

theorem forall2_handleEvolve_refl :
    ∀ l : List (String × HandleRec), List.Forall₂ handleEvolve l l
  | [] => List.Forall₂.nil
  | p :: rest => List.Forall₂.cons (handleEvolve_refl p) (forall2_handleEvolve_refl rest)

theorem handleEvolve_trans (p q r : String × HandleRec)
    (h1 : handleEvolve p q) (h2 : handleEvolve q r) : handleEvolve p r := by
  obtain ⟨hf1, ha1, hb1, hterm1⟩ := h1
  obtain ⟨hf2, ha2, hb2, hterm2⟩ := h2
  refine ⟨hf2.trans hf1, fun t ht => ha2 t (ha1 t ht), fun t ht => hb2 t (hb1 t ht),
    fun hne1 hne2 => ?_⟩
  have hq : q.2 = p.2 := hterm1 hne1 hne2
  have hr : r.2 = q.2 := hterm2 (by rw [hq]; exact hne1) (by rw [hq]; exact hne2)
  exact hr.trans hq

/-- Backward monotonicity of a single-run step: an unset field now was unset
before the run as well. -/
theorem handleStep_back_none (now : Nat) (p q : String × HandleRec)
    (hst : handleStep now p q) :
    (q.2.first_tweet_at = none → p.2.first_tweet_at = none) ∧
    (q.2.second_tweet_at = none → p.2.second_tweet_at = none) := by
  obtain ⟨-, hcase⟩ := hst
  rcases hcase with heq | ⟨hfn, heq⟩ | ⟨hfne, hsn, heq⟩
  · rw [heq]; exact ⟨fun ht => ht, fun ht => ht⟩
  · constructor
    · intro _; exact hfn
    · intro ht; rw [heq] at ht; exact ht
  · constructor
    · intro ht; rw [heq] at ht; exact ht
    · intro _; exact hsn

/-- Any sequence of runs relates input and output registries pointwise by
`handleEvolve`. -/
theorem run_many_forall2 (cap : Nat) :
    ∀ (ps : List ((String → Nat → TransportRes) × Nat))
      (db : List (String × HandleRec)),
      List.Forall₂ handleEvolve db (run_many cap ps db).1 := by
  intro ps
  induction ps with
  | nil => intro db; exact forall2_handleEvolve_refl db
  | cons p ps ih =>
    obtain ⟨o, now⟩ := p
    intro db
    simp only [run_many]
    exact forall2_comp handleEvolve_trans
      ((tweet_loop_forall2 o now cap 0 db).imp
        (fun a b hab => handleStep_evolve now a b hab))
      (ih _)

/-- The keys of the registry are unchanged by any number of runs. -/
theorem run_many_keys (cap : Nat) :
    ∀ (ps : List ((String → Nat → TransportRes) × Nat))
      (db : List (String × HandleRec)),
      (run_many cap ps db).1.map Prod.fst = db.map Prod.fst :=
  fun ps db => forall2_keys (fun _ _ hpq => hpq.1) (run_many_forall2 cap ps db)

/-- Invariant preservation for one run: `second_tweet_at` implies
`first_tweet_at` afterwards if it did before. -/
theorem tweet_loop_inv (oracle : String → Nat → TransportRes) (now cap count : Nat)
    (db : List (String × HandleRec))
    (hinv : ∀ h r, (h, r) ∈ db → r.second_tweet_at ≠ none → r.first_tweet_at ≠ none) :
    ∀ h r', (h, r') ∈ (tweet_loop oracle now cap count db).handles →
      r'.second_tweet_at ≠ none → r'.first_tweet_at ≠ none := by
  intro h r' hm hs
  obtain ⟨p, hp, hstep⟩ :=
    forall2_mem_right (tweet_loop_forall2 oracle now cap count db) (h, r') hm
  obtain ⟨k, r⟩ := p
  obtain ⟨hfst, hcase⟩ := hstep
  rcases hcase with heq | ⟨hfn, heq⟩ | ⟨hfne, hsn, heq⟩
  · have heq' : r' = r := heq
    rw [heq'] at hs ⊢
    exact hinv k r hp hs
  · have heq' : r' = {r with first_tweet_at := some now} := heq
    rw [heq']
    exact Option.some_ne_none now
  · have hfne' : r.first_tweet_at ≠ none := hfne
    have heq' : r' = {r with second_tweet_at := some now} := heq
    rw [heq']
    exact hfne'

/-- Invariant preservation across any number of runs. -/
theorem run_many_inv (cap : Nat) :
    ∀ (ps : List ((String → Nat → TransportRes) × Nat))
      (db : List (String × HandleRec)),
      (∀ h r, (h, r) ∈ db → r.second_tweet_at ≠ none → r.first_tweet_at ≠ none) →
      ∀ h r', (h, r') ∈ (run_many cap ps db).1 →
        r'.second_tweet_at ≠ none → r'.first_tweet_at ≠ none := by
  intro ps
  induction ps with
  | nil => intro db hinv; exact hinv
  | cons p ps ih =>
    obtain ⟨o, now⟩ := p
    intro db hinv
    simp only [run_many]
    exact ih _ (tweet_loop_inv o now cap 0 db hinv)

/-- Every send performed anywhere in a sequence of runs is stage 1 or 2 and
goes to a handle whose corresponding field was still unset in the *initial*
registry. -/
theorem run_many_sends_pre (cap : Nat) :
    ∀ (ps : List ((String → Nat → TransportRes) × Nat))
      (db : List (String × HandleRec)) (h : String) (s : Nat),
      (h, s) ∈ (run_many cap ps db).2 →
      (s = 1 ∨ s = 2) ∧ ∃ r, (h, r) ∈ db ∧
        (s = 1 → r.first_tweet_at = none) ∧ (s = 2 → r.second_tweet_at = none) := by
  intro ps
  induction ps with
  | nil => intro db h s hm; cases hm
  | cons p ps ih =>
    obtain ⟨o, now⟩ := p
    intro db h s hm
    simp only [run_many] at hm
    rcases List.mem_append.mp hm with hm1 | hm2
    · exact tweet_loop_sends_pre o now cap 0 db h s hm1
    · obtain ⟨hst, r', hr', h1, h2⟩ := ih _ h s hm2
      obtain ⟨p, hp, hstep⟩ :=
        forall2_mem_right (tweet_loop_forall2 o now cap 0 db) (h, r') hr'
      obtain ⟨k, r⟩ := p
      have hfst : h = k := hstep.1
      have hback := handleStep_back_none now (k, r) (h, r') hstep
      subst hfst
      exact ⟨hst, r, hp, fun hs1 => hback.1 (h1 hs1), fun hs2 => hback.2 (h2 hs2)⟩

/-- Across any sequence of runs, no (handle, stage) pair is ever sent
twice. -/
theorem run_many_sends_nodup (cap : Nat) :
    ∀ (ps : List ((String → Nat → TransportRes) × Nat))
      (db : List (String × HandleRec)),
      (db.map Prod.fst).Nodup → (run_many cap ps db).2.Nodup := by
  intro ps
  induction ps with
  | nil => intro db _; exact List.nodup_nil
  | cons p ps ih =>
    obtain ⟨o, now⟩ := p
    intro db hnd
    simp only [run_many]
    rw [List.nodup_append]
    have hkeys : (tweet_loop o now cap 0 db).handles.map Prod.fst = db.map Prod.fst :=
      forall2_keys (fun _ _ hpq => hpq.1) (tweet_loop_forall2 o now cap 0 db)
    refine ⟨?_, ?_, ?_⟩
    · exact (hnd.sublist (tweet_loop_sends_sub o now cap 0 db)).of_map
    · exact ih _ (by rw [hkeys]; exact hnd)
    · intro x hx1 hx2
      obtain ⟨h, s⟩ := x
      obtain ⟨r', hr', hm1, hm2⟩ := tweet_loop_sends_marked o now cap 0 db h s hx1
      obtain ⟨hst, r'', hr'', hp1, hp2⟩ := run_many_sends_pre cap ps _ h s hx2
      have hndout : ((tweet_loop o now cap 0 db).handles.map Prod.fst).Nodup := by
        rw [hkeys]; exact hnd
      have huniq := keys_nodup_lookup_unique _ hndout h r' r'' hr' hr''
      rcases hst with rfl | rfl
      · have hx := hp1 rfl
        rw [← huniq] at hx
        exact (hm1 rfl) hx
      · have hx := hp2 rfl
        rw [← huniq] at hx
        exact (hm2 rfl) hx

/-- A terminal (both stages stamped) record survives any number of runs
unchanged and receives no further send. -/
theorem run_many_terminal (cap : Nat)
    (ps : List ((String → Nat → TransportRes) × Nat))
    (db : List (String × HandleRec)) (h : String) (r : HandleRec)
    (hnd : (db.map Prod.fst).Nodup) (hm : (h, r) ∈ db)
    (h1 : r.first_tweet_at ≠ none) (h2 : r.second_tweet_at ≠ none) :
    (h, r) ∈ (run_many cap ps db).1 ∧ ∀ s, (h, s) ∉ (run_many cap ps db).2 := by
  constructor
  · obtain ⟨q, hq, hev⟩ := forall2_mem_left (run_many_forall2 cap ps db) (h, r) hm
    obtain ⟨k', r'⟩ := q
    have hk : k' = h := hev.1
    have hr : r' = r := hev.2.2.2 h1 h2
    rw [hk, hr] at hq
    exact hq
  · intro s hs
    obtain ⟨hst, r'', hr'', hp1, hp2⟩ := run_many_sends_pre cap ps db h s hs
    have huniq := keys_nodup_lookup_unique db hnd h r r'' hm hr''
    rcases hst with rfl | rfl
    · exact h1 (by rw [huniq]; exact hp1 rfl)
    · exact h2 (by rw [huniq]; exact hp2 rfl)

/-- A stage field once stamped keeps its value across any number of runs. -/
theorem run_many_fields_final (cap : Nat)
    (ps : List ((String → Nat → TransportRes) × Nat))
    (db : List (String × HandleRec)) (h : String) (r : HandleRec)
    (hnd : (db.map Prod.fst).Nodup) (hm : (h, r) ∈ db) :
    ∀ r', (h, r') ∈ (run_many cap ps db).1 →
      (∀ t, r.first_tweet_at = some t → r'.first_tweet_at = some t) ∧
      (∀ t, r.second_tweet_at = some t → r'.second_tweet_at = some t) := by
  intro r' hm'
  obtain ⟨q, hq, hev⟩ := forall2_mem_left (run_many_forall2 cap ps db) (h, r) hm
  obtain ⟨k', r''⟩ := q
  have hk : k' = h := hev.1
  rw [hk] at hq
  have hndout : ((run_many cap ps db).1.map Prod.fst).Nodup := by
    rw [run_many_keys cap ps db]
    exact hnd
  have huniq : r' = r'' := keys_nodup_lookup_unique _ hndout h r' r'' hm' hq
  rw [huniq]
  exact ⟨fun t ht => hev.2.1 t ht, fun t ht => hev.2.2.1 t ht⟩

/-- C3: over any number of Stage Runner runs (with arbitrary transport
replies and clocks), starting from a registry with distinct handles in which
`second_tweet_at` implies `first_tweet_at`: the implication still holds
afterwards; a stage field once set keeps its timestamp (each field is set at
most once); the completed sends over all runs contain no (handle, stage)
pair twice; and a terminal STAGE2_SENT record is skipped by every run —
returned unchanged, with no send ever addressed to it. -/
theorem C3_stage_invariants (cap : Nat)
    (ps : List ((String → Nat → TransportRes) × Nat))
    (db : List (String × HandleRec))
    (hnd : (db.map Prod.fst).Nodup)
    (hinv : ∀ h r, (h, r) ∈ db → r.second_tweet_at ≠ none → r.first_tweet_at ≠ none) :
    (∀ h r', (h, r') ∈ (run_many cap ps db).1 →
        r'.second_tweet_at ≠ none → r'.first_tweet_at ≠ none) ∧
    (∀ h r, (h, r) ∈ db → ∀ r', (h, r') ∈ (run_many cap ps db).1 →
        (∀ t, r.first_tweet_at = some t → r'.first_tweet_at = some t) ∧
        (∀ t, r.second_tweet_at = some t → r'.second_tweet_at = some t)) ∧
    (run_many cap ps db).2.Nodup ∧
    (∀ h r, (h, r) ∈ db → r.first_tweet_at ≠ none → r.second_tweet_at ≠ none →
        (h, r) ∈ (run_many cap ps db).1 ∧ ∀ s, (h, s) ∉ (run_many cap ps db).2) :=
  ⟨run_many_inv cap ps db hinv,
   fun h r hm r' hm' => run_many_fields_final cap ps db h r hnd hm r' hm',
   run_many_sends_nodup cap ps db hnd,
   fun h r hm h1 h2 => run_many_terminal cap ps db h r hnd hm h1 h2⟩

/-- Witness for C3: two runs over a two-handle registry, all sends
succeeding. -/
theorem C3_witness :
    (∀ h r', (h, r') ∈ (run_many 10
          [(fun _ _ => TransportRes.success, 1), (fun _ _ => TransportRes.success, 2)]
          [("a", ⟨0, 0, "F", none, none⟩), ("b", ⟨0, 0, "F", some 0, none⟩)]).1 →
        r'.second_tweet_at ≠ none → r'.first_tweet_at ≠ none) ∧
    (∀ h r, (h, r) ∈
        [("a", (⟨0, 0, "F", none, none⟩ : HandleRec)), ("b", ⟨0, 0, "F", some 0, none⟩)] →
      ∀ r', (h, r') ∈ (run_many 10
          [(fun _ _ => TransportRes.success, 1), (fun _ _ => TransportRes.success, 2)]
          [("a", ⟨0, 0, "F", none, none⟩), ("b", ⟨0, 0, "F", some 0, none⟩)]).1 →
        (∀ t, r.first_tweet_at = some t → r'.first_tweet_at = some t) ∧
        (∀ t, r.second_tweet_at = some t → r'.second_tweet_at = some t)) ∧
    (run_many 10
        [(fun _ _ => TransportRes.success, 1), (fun _ _ => TransportRes.success, 2)]
        [("a", ⟨0, 0, "F", none, none⟩), ("b", ⟨0, 0, "F", some 0, none⟩)]).2.Nodup ∧
    (∀ h r, (h, r) ∈
        [("a", (⟨0, 0, "F", none, none⟩ : HandleRec)), ("b", ⟨0, 0, "F", some 0, none⟩)] →
      r.first_tweet_at ≠ none → r.second_tweet_at ≠ none →
      (h, r) ∈ (run_many 10
          [(fun _ _ => TransportRes.success, 1), (fun _ _ => TransportRes.success, 2)]
          [("a", ⟨0, 0, "F", none, none⟩), ("b", ⟨0, 0, "F", some 0, none⟩)]).1 ∧
      ∀ s, (h, s) ∉ (run_many 10
          [(fun _ _ => TransportRes.success, 1), (fun _ _ => TransportRes.success, 2)]
          [("a", ⟨0, 0, "F", none, none⟩), ("b", ⟨0, 0, "F", some 0, none⟩)]).2) :=
  C3_stage_invariants 10
    [(fun _ _ => TransportRes.success, 1), (fun _ _ => TransportRes.success, 2)]
    [("a", ⟨0, 0, "F", none, none⟩), ("b", ⟨0, 0, "F", some 0, none⟩)]
    (by decide)
    (by
      intro h r hm
      rcases List.mem_cons.mp hm with heq | hm'
      · rw [Prod.mk.injEq] at heq
        rw [heq.2]
        intro hc
        exact absurd rfl hc
      · rcases List.mem_cons.mp hm' with heq | hm''
        · rw [Prod.mk.injEq] at heq
          rw [heq.2]
          intro _
          exact Option.some_ne_none 0
        · cases hm'')

end Chirper
